import Mathlib

/-!
Verification of the minesweeper board model (`src/minesweeper.py`).

The Python source is shallowly embedded: the board is a list of lists of
cells (`'*'` is `Cell.mine`, an int count is `Cell.num`, the `None`
placeholder used during construction is the `none` of `Option Cell`);
Python list indexing (including its negative-index wrap-around) is
`pyGet`; the mutable `self.dug` set is passed explicitly as a
`Finset (Int × Int)`; the recursive `dig` is given explicit fuel and
returns `none` when an exception would be raised or the fuel runs out;
`random.randint` results are supplied as an explicit list of samples.
-/

namespace Minesweeper

/-- A fully assigned board cell: Python's `'*'` or an int count. -/
inductive Cell where
  | mine : Cell
  | num : Nat → Cell
deriving DecidableEq, Repr

/-- A cell of the mutable Python board: `none` is the `None` placeholder
present between `make_new_board` and `assign_values_to_board`. -/
abbrev MCell := Option Cell

/-- The Python `self.board`: a list of rows. -/
abbrev PyBoard := List (List MCell)

/-- A `(row, col)` coordinate.  Integers, because Python indices are. -/
abbrev Coord := Int × Int

/-- Python list indexing `l[i]`: nonnegative indices read from the front,
negative indices wrap to `l[len(l)+i]`, anything else raises IndexError
(modelled as `none`). -/
def pyGet (l : List α) (i : Int) : Option α :=
  if 0 ≤ i then l[i.toNat]?
  else if 0 ≤ i + l.length then l[(i + l.length).toNat]?
  else none

/-- Python `self.board[r][c]` as an expression (two chained indexings). -/
def cellAt? (b : PyBoard) (r c : Int) : Option MCell :=
  (pyGet b r).bind fun row => pyGet row c

/-- Python `self.board[r][c] = v` (always used with in-range indices). -/
def setCell (b : PyBoard) (r c : Nat) (v : MCell) : PyBoard :=
  match b[r]? with
  | some row => b.set r (row.set c v)
  | none => b

/-- The list of integers produced by
`range(max(0, x-1), min(dim_size-1, x+1) + 1)`. -/
def clipRange (dim : Nat) (x : Int) : List Int :=
  let lo := max 0 (x - 1)
  let hi := min ((dim : Int) - 1) (x + 1)
  (List.range (hi + 1 - lo).toNat).map fun k : Nat => lo + (k : Int)

/-- The row-major sequence of positions visited by the two nested
`for r in range(max(0,row-1), ...): for c in range(max(0,col-1), ...)`
loops of `get_num_neighboring_bombs` and `dig` (the centre included). -/
def nbrSquare (dim : Nat) (row col : Int) : List Coord :=
  (clipRange dim row).flatMap fun r => (clipRange dim col).map fun c => (r, c)

/-- In-bounds predicate for a coordinate on a `dim × dim` grid. -/
def inB (dim : Nat) (p : Coord) : Prop :=
  0 ≤ p.1 ∧ p.1 < (dim : Int) ∧ 0 ≤ p.2 ∧ p.2 < (dim : Int)

instance (dim : Nat) (p : Coord) : Decidable (inB dim p) := by
  unfold inB; infer_instance

/-- The finite set of in-bounds coordinates of a `dim × dim` grid. -/
def inBF (dim : Nat) : Finset Coord :=
  Finset.Icc 0 ((dim : Int) - 1) ×ˢ Finset.Icc 0 ((dim : Int) - 1)

/-- Python `Board.get_num_neighboring_bombs`: counts `'*'` cells over the
clipped square around `(row, col)`, skipping the centre. -/
def get_num_neighboring_bombs (dim : Nat) (b : PyBoard) (row col : Int) : Nat :=
  ((nbrSquare dim row col).filter fun p =>
    decide (¬(p.1 = row ∧ p.2 = col)) &&
      decide (cellAt? b p.1 p.2 = some (some Cell.mine))).length

/-- The bomb-planting loop of `Board.make_new_board`.  `samples` is the
stream of `random.randint(0, dim_size**2 - 1)` results; a sample outside
that range (impossible for `randint`) or an exhausted stream yields
`none`.  A sample hitting an existing bomb is discarded, exactly as the
`continue` branch does. -/
def plantBombs (dim num_bombs : Nat) : List Nat → Nat → PyBoard → Option PyBoard
  | [], planted, bd => if planted < num_bombs then none else some bd
  | loc :: rest, planted, bd =>
    if planted < num_bombs then
      if loc < dim * dim then
        if cellAt? bd ((loc / dim : Nat) : Int) ((loc % dim : Nat) : Int)
            = some (some Cell.mine) then
          plantBombs dim num_bombs rest planted bd
        else
          plantBombs dim num_bombs rest (planted + 1)
            (setCell bd (loc / dim) (loc % dim) (some Cell.mine))
      else none
    else some bd

/-- Python `Board.make_new_board`: an all-`None` `dim × dim` array with
`num_bombs` bombs planted by rejection sampling. -/
def make_new_board (dim num_bombs : Nat) (samples : List Nat) : Option PyBoard :=
  plantBombs dim num_bombs samples 0 (List.replicate dim (List.replicate dim none))

/-- One iteration of the `assign_values_to_board` loops: skip a bomb,
otherwise store the neighbour count computed on the current board. -/
def assignCell (dim : Nat) (bd : PyBoard) (r c : Nat) : PyBoard :=
  if cellAt? bd (r : Int) (c : Int) = some (some Cell.mine) then bd
  else setCell bd r c (some (Cell.num (get_num_neighboring_bombs dim bd (r : Int) (c : Int))))

/-- Python `Board.assign_values_to_board`: the two nested `for` loops,
mutating the board in place row by row. -/
def assign_values_to_board (dim : Nat) (bd : PyBoard) : PyBoard :=
  (List.range dim).foldl
    (fun b r => (List.range dim).foldl (fun b c => assignCell dim b r c) b) bd

/-- Python `Board.__init__`: `make_new_board` followed by
`assign_values_to_board` (the `dug` set starts empty and is threaded
separately). -/
def mkBoard (dim num_bombs : Nat) (samples : List Nat) : Option PyBoard :=
  (make_new_board dim num_bombs samples).map (assign_values_to_board dim)

/-- The inner loop of `dig` over the neighbour square: skip coordinates
already dug, otherwise recurse via `f` (whose Bool result is discarded,
as Python discards the recursive `self.dig(r, c)` value). -/
def digManyAux (f : Finset Coord → Int → Int → Option (Finset Coord × Bool)) :
    Finset Coord → List Coord → Option (Finset Coord)
  | dug, [] => some dug
  | dug, q :: qs =>
    if q ∈ dug then digManyAux f dug qs
    else
      match f dug q.1 q.2 with
      | some (d, _) => digManyAux f d qs
      | none => none

/-- Python `Board.dig`, generalised over the order `nbrs` in which the
neighbour square is enumerated (the source uses the row-major
`nbrSquare`).  The coordinate is added to `dug` first; a `'*'` cell
returns `False`, a positive count returns `True`, a zero count recurses
over the neighbours.  `none` models a raised exception (unreadable cell)
or exhausted fuel. -/
def digF (b : PyBoard) (nbrs : Int → Int → List Coord) :
    Nat → Finset Coord → Int → Int → Option (Finset Coord × Bool)
  | 0, _, _, _ => none
  | fuel + 1, dug, row, col =>
    let dug1 := insert (row, col) dug
    match cellAt? b row col with
    | some (some Cell.mine) => some (dug1, false)
    | some (some (Cell.num n)) =>
      if 0 < n then some (dug1, true)
      else
        match digManyAux (fun d r c => digF b nbrs fuel d r c) dug1 (nbrs row col) with
        | some d => some (d, true)
        | none => none
    | _ => none

/-- Python `Board.dig` itself: `digF` with the source's row-major
neighbour order. -/
def dig (dim : Nat) (b : PyBoard) (fuel : Nat) (dug : Finset Coord) (row col : Int) :
    Option (Finset Coord × Bool) :=
  digF b (nbrSquare dim) fuel dug row col

/-- A coordinate holding a bomb. -/
def isMine (b : PyBoard) (p : Coord) : Prop :=
  cellAt? b p.1 p.2 = some (some Cell.mine)

instance (b : PyBoard) (p : Coord) : Decidable (isMine b p) := by
  unfold isMine; infer_instance

/-- The set of in-bounds bomb coordinates of a board. -/
def minesF (dim : Nat) (b : PyBoard) : Finset Coord :=
  (inBF dim).filter fun p => isMine b p

/-- The spec's up-to-8 neighbour offsets of `(r, c)` (before clipping),
in row-major order. -/
def neighborOffsets (r c : Int) : List Coord :=
  [(r - 1, c - 1), (r - 1, c), (r - 1, c + 1),
   (r, c - 1), (r, c + 1),
   (r + 1, c - 1), (r + 1, c), (r + 1, c + 1)]

/-- Modelled from the spec: the number of Mine cells among the up-to-8
neighbours of `(r, c)`, clipped at grid edges with no wrap-around. -/
def mineNbrCount (dim : Nat) (b : PyBoard) (r c : Int) : Nat :=
  ((neighborOffsets r c).filter fun q =>
    decide (inB dim q) && decide (isMine b q)).length

/-- The board is a `dim`-row list of `dim`-long rows. -/
def gridShape (dim : Nat) (b : PyBoard) : Prop :=
  b.length = dim ∧ ∀ row ∈ b, row.length = dim

instance (dim : Nat) (b : PyBoard) : Decidable (gridShape dim b) := by
  unfold gridShape; infer_instance

/-- The in-bounds read succeeds and yields an assigned (non-`None`) cell. -/
def realCellB (o : Option MCell) : Bool :=
  match o with
  | some (some _) => true
  | _ => false

/-- Correctness of one stored count, as a decidable check. -/
def countOKB (dim : Nat) (b : PyBoard) (p : Coord) : Bool :=
  match cellAt? b p.1 p.2 with
  | some (some (Cell.num n)) => decide (n = mineNbrCount dim b p.1 p.2)
  | _ => true

/-- A valid board: proper shape, every in-bounds cell assigned, exactly
`num_bombs` mines, and every stored count equal to the true clipped
8-neighbourhood mine count. -/
def ValidBoard (dim num_bombs : Nat) (b : PyBoard) : Prop :=
  gridShape dim b ∧
  (∀ p ∈ inBF dim, realCellB (cellAt? b p.1 p.2) = true) ∧
  (minesF dim b).card = num_bombs ∧
  ∀ p ∈ inBF dim, countOKB dim b p = true

instance (dim num_bombs : Nat) (b : PyBoard) : Decidable (ValidBoard dim num_bombs b) := by
  unfold ValidBoard; infer_instance

/-- One step of the spec's cascade relation: from a revealed in-bounds
`Count(0)` cell to any position of its clipped neighbour square. -/
def CascStep (dim : Nat) (b : PyBoard) (p q : Coord) : Prop :=
  inB dim p ∧ cellAt? b p.1 p.2 = some (some (Cell.num 0)) ∧ q ∈ nbrSquare dim p.1 p.2

/-- Modelled from the spec: the closure of a starting set under the
relation "add all clipped 8-neighbours of any revealed Count(0) cell". -/
inductive CascClosure (dim : Nat) (b : PyBoard) (S0 : Set Coord) : Coord → Prop where
  | base (p : Coord) : p ∈ S0 → CascClosure dim b S0 p
  | expand (p q : Coord) :
      CascClosure dim b S0 p → CascStep dim b p q → CascClosure dim b S0 q

/-- Every already-revealed in-bounds `Count(0)` cell has its whole
neighbour square already revealed (true of the empty dug set, and of
every dug set produced by `dig` from such a set). -/
def DugInv (dim : Nat) (b : PyBoard) (dug : Finset Coord) : Prop :=
  ∀ p ∈ dug, inB dim p → cellAt? b p.1 p.2 = some (some (Cell.num 0)) →
    ∀ q ∈ nbrSquare dim p.1 p.2, q ∈ dug

/-- Game states `(dug, safe)` reachable by the `play` loop: digs are
performed only from a safe state, on a validated in-bounds coordinate,
while `len(dug) < dim_size ** 2 - num_bombs`. -/
inductive Reachable (dim num_bombs : Nat) (grid : PyBoard) : Finset Coord → Bool → Prop where
  | start : Reachable dim num_bombs grid ∅ true
  | step (dug : Finset Coord) (r c : Int) (D : Finset Coord) (bl : Bool) :
      Reachable dim num_bombs grid dug true →
      dug.card < dim * dim - num_bombs →
      0 ≤ r → r < (dim : Int) → 0 ≤ c → c < (dim : Int) →
      dig dim grid (dim * dim + 1) dug r c = some (D, bl) →
      Reachable dim num_bombs grid D bl

/-- The `play` loop's victory condition: the loop is no longer running
(`len(dug) >= dim_size ** 2 - num_bombs`) and the last dig was safe. -/
def playVictory (dim num_bombs : Nat) (dug : Finset Coord) (safe : Bool) : Bool :=
  safe && !(decide (dug.card < dim * dim - num_bombs))

/-! Basic facts about indexing, the neighbour square, and the grid. -/

theorem inB_iff {dim : Nat} {p : Coord} :
    inB dim p ↔ 0 ≤ p.1 ∧ p.1 < (dim : Int) ∧ 0 ≤ p.2 ∧ p.2 < (dim : Int) := Iff.rfl

theorem pyGet_nonneg {l : List α} {i : Int} (h : 0 ≤ i) : pyGet l i = l[i.toNat]? := by
  simp [pyGet, h]

theorem pyGet_natCast (l : List α) (n : Nat) : pyGet l (n : Int) = l[n]? := by
  rw [pyGet_nonneg (Int.natCast_nonneg n), Int.toNat_natCast]

theorem cellAt?_natCast (b : PyBoard) (r c : Nat) :
    cellAt? b (r : Int) (c : Int) = (b[r]?).bind fun row => row[c]? := by
  unfold cellAt?
  rw [pyGet_natCast]
  cases b[r]? with
  | none => rfl
  | some row => simp [pyGet_natCast]

theorem cellAt?_nonneg (b : PyBoard) {r c : Int} (hr : 0 ≤ r) (hc : 0 ≤ c) :
    cellAt? b r c = (b[r.toNat]?).bind fun row => row[c.toNat]? := by
  unfold cellAt?
  rw [pyGet_nonneg hr]
  cases b[r.toNat]? with
  | none => rfl
  | some row => simp [pyGet_nonneg hc]

theorem mem_clipRange {dim : Nat} {x y : Int} :
    y ∈ clipRange dim x ↔ max 0 (x - 1) ≤ y ∧ y ≤ min ((dim : Int) - 1) (x + 1) := by
  simp only [clipRange, List.mem_map, List.mem_range]
  constructor
  · rintro ⟨k, hk, rfl⟩
    omega
  · intro h
    exact ⟨(y - max 0 (x - 1)).toNat, by omega, by omega⟩

theorem nodup_clipRange {dim : Nat} {x : Int} : (clipRange dim x).Nodup := by
  unfold clipRange
  exact List.Nodup.map (fun a b h => by omega) (List.nodup_range _)

theorem mem_nbrSquare {dim : Nat} {r c : Int} {q : Coord} :
    q ∈ nbrSquare dim r c ↔
      (max 0 (r - 1) ≤ q.1 ∧ q.1 ≤ min ((dim : Int) - 1) (r + 1)) ∧
      (max 0 (c - 1) ≤ q.2 ∧ q.2 ≤ min ((dim : Int) - 1) (c + 1)) := by
  obtain ⟨a, b2⟩ := q
  simp only [nbrSquare, List.mem_flatMap, List.mem_map, Prod.mk.injEq]
  constructor
  · rintro ⟨r', hr', c', hc', rfl, rfl⟩
    exact ⟨mem_clipRange.1 hr', mem_clipRange.1 hc'⟩
  · rintro ⟨h1, h2⟩
    exact ⟨a, mem_clipRange.2 h1, b2, mem_clipRange.2 h2, rfl, rfl⟩

theorem inB_of_mem_nbrSquare {dim : Nat} {r c : Int} {q : Coord}
    (h : q ∈ nbrSquare dim r c) : inB dim q := by
  rw [mem_nbrSquare] at h
  exact ⟨by omega, by omega, by omega, by omega⟩

theorem nodup_nbrSquare {dim : Nat} {r c : Int} : (nbrSquare dim r c).Nodup := by
  unfold nbrSquare
  rw [List.nodup_flatMap]
  refine ⟨fun x _ => nodup_clipRange.map fun a b h => (Prod.ext_iff.1 h).2, ?_⟩
  refine nodup_clipRange.imp ?_
  intro a b hab p hp1 hp2
  simp only [List.mem_map] at hp1 hp2
  obtain ⟨c1, _, rfl⟩ := hp1
  obtain ⟨c2, _, h2⟩ := hp2
  exact hab (Prod.ext_iff.1 h2).1.symm

theorem mem_neighborOffsets {r c : Int} {q : Coord} :
    q ∈ neighborOffsets r c ↔
      ¬(q.1 = r ∧ q.2 = c) ∧ r - 1 ≤ q.1 ∧ q.1 ≤ r + 1 ∧ c - 1 ≤ q.2 ∧ q.2 ≤ c + 1 := by
  obtain ⟨a, b2⟩ := q
  simp only [neighborOffsets, List.mem_cons, List.not_mem_nil, or_false, Prod.mk.injEq]
  omega

theorem nodup_neighborOffsets {r c : Int} : (neighborOffsets r c).Nodup := by
  simp only [neighborOffsets, List.nodup_cons, List.mem_cons, List.not_mem_nil,
    List.nodup_nil, Prod.mk.injEq, or_false, and_true, true_and, not_or, not_and]
  refine ⟨⟨?_, ?_, ?_, ?_, ?_, ?_, ?_⟩, ⟨?_, ?_, ?_, ?_, ?_, ?_⟩, ⟨?_, ?_, ?_, ?_, ?_⟩,
    ⟨?_, ?_, ?_, ?_⟩, ⟨?_, ?_, ?_⟩, ⟨?_, ?_⟩, ?_, fun h => h⟩ <;> omega

theorem mem_inBF {dim : Nat} {p : Coord} : p ∈ inBF dim ↔ inB dim p := by
  obtain ⟨a, b2⟩ := p
  rw [inB_iff]
  simp only [inBF, Finset.mem_product, Finset.mem_Icc]
  omega

theorem card_inBF (dim : Nat) : (inBF dim).card = dim * dim := by
  simp only [inBF, Finset.card_product, Int.card_Icc]
  have h : ((dim : Int) - 1 + 1 - 0).toNat = dim := by omega
  rw [h]

/-- The loop of `get_num_neighboring_bombs` counts exactly the spec's
clipped 8-neighbourhood mines, for an in-bounds centre. -/
theorem get_num_eq_mineNbrCount {dim : Nat} (b : PyBoard) {r c : Int}
    (h : inB dim (r, c)) :
    get_num_neighboring_bombs dim b r c = mineNbrCount dim b r c := by
  unfold get_num_neighboring_bombs mineNbrCount
  apply List.Perm.length_eq
  rw [List.perm_ext_iff_of_nodup (nodup_nbrSquare.filter _) (nodup_neighborOffsets.filter _)]
  intro q
  simp only [List.mem_filter, Bool.and_eq_true, decide_eq_true_eq, mem_nbrSquare,
    mem_neighborOffsets, isMine]
  rw [inB_iff] at h ⊢
  constructor
  · rintro ⟨hsq, hne, hm⟩
    exact ⟨⟨hne, by omega, by omega, by omega, by omega⟩, ⟨by omega, by omega, by omega, by omega⟩, hm⟩
  · rintro ⟨⟨hne, hoff⟩, hin, hm⟩
    exact ⟨⟨by omega, by omega⟩, hne, hm⟩

/-! Facts about `setCell`. -/

theorem length_setCell (b : PyBoard) (r c : Nat) (v : MCell) :
    (setCell b r c v).length = b.length := by
  unfold setCell
  split <;> simp

theorem gridShape_setCell {dim : Nat} {b : PyBoard} (h : gridShape dim b)
    (r c : Nat) (v : MCell) : gridShape dim (setCell b r c v) := by
  obtain ⟨h1, h2⟩ := h
  unfold setCell
  split
  case h_1 row hrow =>
    refine ⟨by simpa using h1, ?_⟩
    intro row' hrow'
    rcases List.mem_or_eq_of_mem_set hrow' with hmem | rfl
    · exact h2 _ hmem
    · obtain ⟨hlt, rfl⟩ := List.getElem?_eq_some.1 hrow
      rw [List.length_set]
      exact h2 _ (List.getElem_mem hlt)
  case h_2 => exact ⟨h1, h2⟩

theorem cellAt?_setCell_eq {dim : Nat} {b : PyBoard} (h : gridShape dim b)
    {r c : Nat} (hr : r < dim) (hc : c < dim) (v : MCell) :
    cellAt? (setCell b r c v) (r : Int) (c : Int) = some v := by
  obtain ⟨h1, h2⟩ := h
  unfold setCell
  have hrl : r < b.length := by omega
  have hrow : ∃ row, b[r]? = some row := ⟨b[r], List.getElem?_eq_some.2 ⟨hrl, rfl⟩⟩
  obtain ⟨row, hrw⟩ := hrow
  rw [hrw]
  rw [cellAt?_natCast]
  rw [List.getElem?_set_self (by simpa using hrl)]
  have hcl : c < row.length := by
    obtain ⟨hlt, rfl⟩ := List.getElem?_eq_some.1 hrw
    rw [h2 _ (List.getElem_mem hlt)]
    exact hc
  simp [List.getElem?_set_self hcl]

theorem cellAt?_setCell_ne {b : PyBoard} {r c : Nat} {r' c' : Int}
    (hr' : 0 ≤ r') (hc' : 0 ≤ c') (hne : ¬(r' = (r : Int) ∧ c' = (c : Int))) (v : MCell) :
    cellAt? (setCell b r c v) r' c' = cellAt? b r' c' := by
  unfold setCell
  cases hb : b[r]? with
  | none => rfl
  | some row =>
    rw [cellAt?_nonneg _ hr' hc', cellAt?_nonneg _ hr' hc']
    by_cases hrr : r'.toNat = r
    · have hcc : c'.toNat ≠ c := by omega
      rw [hrr, List.getElem?_set_self (List.getElem?_eq_some.1 hb).1, hb]
      simp [List.getElem?_set_ne (fun hcontra => hcc hcontra.symm)]
    · rw [List.getElem?_set_ne (fun hcontra => hrr hcontra.symm)]

/-! Unfolding equations for `digF` and `digManyAux`. -/

theorem digF_fuel_zero (b : PyBoard) (nbrs : Int → Int → List Coord)
    (dug : Finset Coord) (row col : Int) : digF b nbrs 0 dug row col = none := rfl

theorem digF_mine {b : PyBoard} {row col : Int} (nbrs : Int → Int → List Coord)
    (fuel : Nat) (dug : Finset Coord) (h : cellAt? b row col = some (some Cell.mine)) :
    digF b nbrs (fuel + 1) dug row col = some (insert (row, col) dug, false) := by
  simp [digF, h]

theorem digF_pos {b : PyBoard} {row col : Int} {n : Nat} (nbrs : Int → Int → List Coord)
    (fuel : Nat) (dug : Finset Coord) (h : cellAt? b row col = some (some (Cell.num n)))
    (hn : 0 < n) :
    digF b nbrs (fuel + 1) dug row col = some (insert (row, col) dug, true) := by
  simp [digF, h, hn]

theorem digF_zeroCell {b : PyBoard} {row col : Int} (nbrs : Int → Int → List Coord)
    (fuel : Nat) (dug : Finset Coord) (h : cellAt? b row col = some (some (Cell.num 0))) :
    digF b nbrs (fuel + 1) dug row col =
      (digManyAux (fun d r c => digF b nbrs fuel d r c) (insert (row, col) dug)
        (nbrs row col)).map (fun d => (d, true)) := by
  cases hdm : digManyAux (fun d r c => digF b nbrs fuel d r c) (insert (row, col) dug)
      (nbrs row col) with
  | none => simp [digF, h, hdm]
  | some d => simp [digF, h, hdm]

theorem digF_err {b : PyBoard} {row col : Int} (nbrs : Int → Int → List Coord)
    (fuel : Nat) (dug : Finset Coord)
    (h : cellAt? b row col = some none ∨ cellAt? b row col = none) :
    digF b nbrs (fuel + 1) dug row col = none := by
  rcases h with h | h <;> simp [digF, h]

theorem digF_some_cell {b : PyBoard} {nbrs : Int → Int → List Coord}
    {fuel : Nat} {dug D : Finset Coord} {row col : Int} {bl : Bool}
    (h : digF b nbrs fuel dug row col = some (D, bl)) :
    ∃ f, fuel = f + 1 ∧ ∃ cl : Cell, cellAt? b row col = some (some cl) := by
  cases fuel with
  | zero => rw [digF_fuel_zero] at h; exact Option.noConfusion h
  | succ f =>
    cases hcell : cellAt? b row col with
    | none => rw [digF_err nbrs f dug (Or.inr hcell)] at h; exact Option.noConfusion h
    | some mc =>
      cases mc with
      | none => rw [digF_err nbrs f dug (Or.inl hcell)] at h; exact Option.noConfusion h
      | some cl => exact ⟨f, rfl, cl, rfl⟩

theorem digManyAux_nil (f : Finset Coord → Int → Int → Option (Finset Coord × Bool))
    (dug : Finset Coord) : digManyAux f dug [] = some dug := rfl

theorem digManyAux_cons_mem {f : Finset Coord → Int → Int → Option (Finset Coord × Bool)}
    {dug : Finset Coord} {q : Coord} (qs : List Coord) (h : q ∈ dug) :
    digManyAux f dug (q :: qs) = digManyAux f dug qs := by
  simp [digManyAux, h]

theorem digManyAux_cons_some {f : Finset Coord → Int → Int → Option (Finset Coord × Bool)}
    {dug d : Finset Coord} {q : Coord} {bl : Bool} (qs : List Coord) (h : q ∉ dug)
    (hf : f dug q.1 q.2 = some (d, bl)) :
    digManyAux f dug (q :: qs) = digManyAux f d qs := by
  simp [digManyAux, h, hf]

theorem digManyAux_cons_none {f : Finset Coord → Int → Int → Option (Finset Coord × Bool)}
    {dug : Finset Coord} {q : Coord} (qs : List Coord) (h : q ∉ dug)
    (hf : f dug q.1 q.2 = none) :
    digManyAux f dug (q :: qs) = none := by
  simp [digManyAux, h, hf]

/-! The dug set only grows, and every processed coordinate ends up dug. -/

theorem digManyAux_subset {f : Finset Coord → Int → Int → Option (Finset Coord × Bool)}
    (hf : ∀ dug r c d bl, f dug r c = some (d, bl) → dug ⊆ d)
    (hf2 : ∀ dug r c d bl, f dug r c = some (d, bl) → (r, c) ∈ d) :
    ∀ qs dug D, digManyAux f dug qs = some D → dug ⊆ D ∧ ∀ q ∈ qs, q ∈ D := by
  intro qs
  induction qs with
  | nil =>
    intro dug D h
    rw [digManyAux_nil] at h
    cases h
    exact ⟨Finset.Subset.refl _, by simp⟩
  | cons q qs ih =>
    intro dug D h
    by_cases hq : q ∈ dug
    · rw [digManyAux_cons_mem qs hq] at h
      obtain ⟨h1, h2⟩ := ih _ _ h
      refine ⟨h1, ?_⟩
      intro p hp
      rcases List.mem_cons.1 hp with rfl | hp
      · exact h1 hq
      · exact h2 _ hp
    · cases hfd : f dug q.1 q.2 with
      | none => rw [digManyAux_cons_none qs hq hfd] at h; exact Option.noConfusion h
      | some db =>
        obtain ⟨d, bl⟩ := db
        rw [digManyAux_cons_some qs hq hfd] at h
        obtain ⟨h1, h2⟩ := ih _ _ h
        refine ⟨(hf _ _ _ _ _ hfd).trans h1, ?_⟩
        intro p hp
        rcases List.mem_cons.1 hp with rfl | hp
        · exact h1 (hf2 _ _ _ _ _ hfd)
        · exact h2 _ hp

theorem digF_subset {b : PyBoard} {nbrs : Int → Int → List Coord} :
    ∀ fuel dug row col D bl, digF b nbrs fuel dug row col = some (D, bl) →
      dug ⊆ D ∧ (row, col) ∈ D := by
  intro fuel
  induction fuel with
  | zero =>
    intro dug row col D bl h
    rw [digF_fuel_zero] at h
    exact Option.noConfusion h
  | succ f ih =>
    intro dug row col D bl h
    obtain ⟨f', hf', cl, hcell⟩ := digF_some_cell h
    cases cl with
    | mine =>
      rw [digF_mine nbrs f dug hcell] at h
      cases h
      exact ⟨Finset.subset_insert _ _, Finset.mem_insert_self _ _⟩
    | num n =>
      cases n with
      | succ m =>
        rw [digF_pos nbrs f dug hcell (Nat.succ_pos m)] at h
        cases h
        exact ⟨Finset.subset_insert _ _, Finset.mem_insert_self _ _⟩
      | zero =>
        rw [digF_zeroCell nbrs f dug hcell] at h
        cases hdm : digManyAux (fun d r c => digF b nbrs f d r c) (insert (row, col) dug)
            (nbrs row col) with
        | none => rw [hdm] at h; exact Option.noConfusion h
        | some d =>
          rw [hdm] at h
          have h' : (d, true) = (D, bl) := by simpa using h
          obtain ⟨rfl, rfl⟩ := Prod.ext_iff.1 h'
          have hsub := (digManyAux_subset
            (fun dug r c d bl hfd => (ih dug r c d bl hfd).1)
            (fun dug r c d bl hfd => (ih dug r c d bl hfd).2) _ _ _ hdm).1
          exact ⟨(Finset.subset_insert _ _).trans hsub, hsub (Finset.mem_insert_self _ _)⟩

theorem digManyAux_all_mem {f : Finset Coord → Int → Int → Option (Finset Coord × Bool)}
    {dug : Finset Coord} : ∀ {qs : List Coord}, (∀ q ∈ qs, q ∈ dug) →
      digManyAux f dug qs = some dug := by
  intro qs
  induction qs with
  | nil => intro _; rfl
  | cons q qs ih =>
    intro h
    rw [digManyAux_cons_mem qs (h q (List.mem_cons_self q qs))]
    exact ih fun p hp => h p (List.mem_cons_of_mem _ hp)

/-- Cell reads succeed and give assigned cells exactly when `realCellB`. -/
theorem realCellB_iff {o : Option MCell} :
    realCellB o = true ↔ ∃ cl : Cell, o = some (some cl) := by
  cases o with
  | none => simp [realCellB]
  | some mc => cases mc with
    | none => simp [realCellB]
    | some cl => simp [realCellB]

/-- Termination of the flood fill: with fuel exceeding the number of
in-bounds coordinates not yet dug, `digF` completes.  The recursion is
well-founded because each nested call happens at a coordinate that was
not yet dug and records it before recursing, so the undug portion of the
finite grid strictly shrinks. -/
theorem digF_isSome {dim : Nat} {b : PyBoard} {nbrs : Int → Int → List Coord}
    (hwf : ∀ p ∈ inBF dim, realCellB (cellAt? b p.1 p.2) = true)
    (hnb : ∀ row col : Int, ∀ q ∈ nbrs row col, inB dim q) :
    ∀ fuel dug row col, inB dim (row, col) →
      (inBF dim \ insert (row, col) dug).card < fuel →
      (digF b nbrs fuel dug row col).isSome = true := by
  intro fuel
  induction fuel with
  | zero => intro dug row col _ hcard; exact absurd hcard (Nat.not_lt_zero _)
  | succ f ih =>
    intro dug row col hin hcard
    obtain ⟨cl, hcl⟩ := realCellB_iff.1 (hwf (row, col) (mem_inBF.2 hin))
    cases cl with
    | mine => rw [digF_mine nbrs f dug hcl]; rfl
    | num n =>
      cases n with
      | succ m => rw [digF_pos nbrs f dug hcl (Nat.succ_pos m)]; rfl
      | zero =>
        rw [digF_zeroCell nbrs f dug hcl]
        have key : ∀ qs : List Coord, (∀ q ∈ qs, inB dim q) → ∀ dug',
            (inBF dim \ dug').card ≤ f →
            (digManyAux (fun d r c => digF b nbrs f d r c) dug' qs).isSome = true := by
          intro qs
          induction qs with
          | nil => intro _ dug' _; rw [digManyAux_nil]; rfl
          | cons q qs ihq =>
            intro hqsin dug' hcard'
            by_cases hq : q ∈ dug'
            · rw [digManyAux_cons_mem qs hq]
              exact ihq (fun p hp => hqsin p (List.mem_cons_of_mem _ hp)) dug' hcard'
            · have hqin : inB dim q := hqsin q (List.mem_cons_self q qs)
              have hstrict : (inBF dim \ insert (q.1, q.2) dug').card < (inBF dim \ dug').card := by
                apply Finset.card_lt_card
                rw [Finset.ssubset_iff_of_subset
                  (Finset.sdiff_subset_sdiff (Finset.Subset.refl _) (Finset.subset_insert _ _))]
                exact ⟨q, Finset.mem_sdiff.2 ⟨mem_inBF.2 hqin, hq⟩,
                  fun hmem => (Finset.mem_sdiff.1 hmem).2 (Finset.mem_insert_self _ _)⟩
              have hq_isSome := ih dug' q.1 q.2 hqin (by omega)
              obtain ⟨⟨d, bl⟩, hd⟩ := Option.isSome_iff_exists.1 hq_isSome
              rw [digManyAux_cons_some qs hq hd]
              have hsubd := digF_subset f dug' q.1 q.2 d bl hd
              apply ihq (fun p hp => hqsin p (List.mem_cons_of_mem _ hp)) d
              have hgrow : insert (q.1, q.2) dug' ⊆ d :=
                Finset.insert_subset hsubd.2 hsubd.1
              have : (inBF dim \ d).card ≤ (inBF dim \ insert (q.1, q.2) dug').card :=
                Finset.card_le_card (Finset.sdiff_subset_sdiff (Finset.Subset.refl _) hgrow)
              omega
        have hres := key (nbrs row col) (fun q hq => hnb row col q hq)
          (insert (row, col) dug) (by omega)
        cases hdm : digManyAux (fun d r c => digF b nbrs f d r c) (insert (row, col) dug)
            (nbrs row col) with
        | none => rw [hdm] at hres; simp at hres
        | some d => rfl

/-! Everything `dig` adds is cascade-reachable from the dug coordinate. -/

theorem digF_casc {dim : Nat} {b : PyBoard} {nbrs : Int → Int → List Coord}
    (hmem : ∀ row col : Int, ∀ q : Coord, q ∈ nbrs row col ↔ q ∈ nbrSquare dim row col) :
    ∀ fuel dug row col D bl, inB dim (row, col) →
      digF b nbrs fuel dug row col = some (D, bl) →
      ∀ x ∈ D, x ∈ dug ∨ Relation.ReflTransGen (CascStep dim b) (row, col) x := by
  intro fuel
  induction fuel with
  | zero =>
    intro dug row col D bl _ h
    rw [digF_fuel_zero] at h
    exact Option.noConfusion h
  | succ f ih =>
    intro dug row col D bl hin h
    obtain ⟨f', hf', cl, hcell⟩ := digF_some_cell h
    cases cl with
    | mine =>
      rw [digF_mine nbrs f dug hcell] at h
      cases h
      intro x hx
      rcases Finset.mem_insert.1 hx with rfl | hx
      · exact Or.inr Relation.ReflTransGen.refl
      · exact Or.inl hx
    | num n =>
      cases n with
      | succ m =>
        rw [digF_pos nbrs f dug hcell (Nat.succ_pos m)] at h
        cases h
        intro x hx
        rcases Finset.mem_insert.1 hx with rfl | hx
        · exact Or.inr Relation.ReflTransGen.refl
        · exact Or.inl hx
      | zero =>
        rw [digF_zeroCell nbrs f dug hcell] at h
        cases hdm : digManyAux (fun d r c => digF b nbrs f d r c) (insert (row, col) dug)
            (nbrs row col) with
        | none => rw [hdm] at h; exact Option.noConfusion h
        | some d =>
          rw [hdm] at h
          have h' : (d, true) = (D, bl) := by simpa using h
          obtain ⟨rfl, rfl⟩ := Prod.ext_iff.1 h'
          have aux : ∀ qs : List Coord, (∀ q ∈ qs, inB dim q) → ∀ dug' D',
              digManyAux (fun d r c => digF b nbrs f d r c) dug' qs = some D' →
              ∀ x ∈ D', x ∈ dug' ∨ ∃ q ∈ qs, Relation.ReflTransGen (CascStep dim b) q x := by
            intro qs
            induction qs with
            | nil =>
              intro _ dug' D' hq x hx
              rw [digManyAux_nil] at hq
              cases hq
              exact Or.inl hx
            | cons q qs ihq =>
              intro hqsin dug' D' hq x hx
              by_cases hqd : q ∈ dug'
              · rw [digManyAux_cons_mem qs hqd] at hq
                rcases ihq (fun p hp => hqsin p (List.mem_cons_of_mem _ hp)) dug' D' hq x hx with
                  hx' | ⟨p, hp, hrtg⟩
                · exact Or.inl hx'
                · exact Or.inr ⟨p, List.mem_cons_of_mem _ hp, hrtg⟩
              · cases hfd : digF b nbrs f dug' q.1 q.2 with
                | none => rw [digManyAux_cons_none qs hqd hfd] at hq; exact Option.noConfusion hq
                | some db =>
                  obtain ⟨d1, bl1⟩ := db
                  rw [digManyAux_cons_some qs hqd hfd] at hq
                  rcases ihq (fun p hp => hqsin p (List.mem_cons_of_mem _ hp)) d1 D' hq x hx with
                    hx' | ⟨p, hp, hrtg⟩
                  · rcases ih dug' q.1 q.2 d1 bl1 (hqsin q (List.mem_cons_self q qs)) hfd x hx' with
                      hx'' | hrtg
                    · exact Or.inl hx''
                    · exact Or.inr ⟨q, List.mem_cons_self q qs, hrtg⟩
                  · exact Or.inr ⟨p, List.mem_cons_of_mem _ hp, hrtg⟩
          intro x hx
          rcases aux (nbrs row col)
              (fun q hq => inB_of_mem_nbrSquare ((hmem row col q).1 hq))
              (insert (row, col) dug) d hdm x hx with hx' | ⟨q, hq, hrtg⟩
          · rcases Finset.mem_insert.1 hx' with rfl | hx''
            · exact Or.inr Relation.ReflTransGen.refl
            · exact Or.inl hx''
          · exact Or.inr (Relation.ReflTransGen.head
              ⟨hin, hcell, (hmem row col q).1 hq⟩ hrtg)

/-! Every newly dug `Count(0)` cell has its whole neighbour square dug. -/

theorem digF_closed {dim : Nat} {b : PyBoard} {nbrs : Int → Int → List Coord}
    (hmem : ∀ row col : Int, ∀ q : Coord, q ∈ nbrs row col ↔ q ∈ nbrSquare dim row col) :
    ∀ fuel dug row col D bl, digF b nbrs fuel dug row col = some (D, bl) →
      ∀ p ∈ D, p ∉ dug → cellAt? b p.1 p.2 = some (some (Cell.num 0)) →
        ∀ q ∈ nbrSquare dim p.1 p.2, q ∈ D := by
  intro fuel
  induction fuel with
  | zero =>
    intro dug row col D bl h
    rw [digF_fuel_zero] at h
    exact Option.noConfusion h
  | succ f ih =>
    intro dug row col D bl h
    obtain ⟨f', hf', cl, hcell⟩ := digF_some_cell h
    have hmono : ∀ dug r c d bl, digF b nbrs f dug r c = some (d, bl) → dug ⊆ d :=
      fun dug r c d bl hfd => (digF_subset f dug r c d bl hfd).1
    have hmem2 : ∀ dug r c d bl, digF b nbrs f dug r c = some (d, bl) → (r, c) ∈ d :=
      fun dug r c d bl hfd => (digF_subset f dug r c d bl hfd).2
    cases cl with
    | mine =>
      rw [digF_mine nbrs f dug hcell] at h
      cases h
      intro p hp hpd hp0
      rcases Finset.mem_insert.1 hp with rfl | hp'
      · rw [hcell] at hp0
        exact absurd hp0 (by simp)
      · exact absurd hp' hpd
    | num n =>
      cases n with
      | succ m =>
        rw [digF_pos nbrs f dug hcell (Nat.succ_pos m)] at h
        cases h
        intro p hp hpd hp0
        rcases Finset.mem_insert.1 hp with rfl | hp'
        · rw [hcell] at hp0
          exact absurd hp0 (by simp)
        · exact absurd hp' hpd
      | zero =>
        rw [digF_zeroCell nbrs f dug hcell] at h
        cases hdm : digManyAux (fun d r c => digF b nbrs f d r c) (insert (row, col) dug)
            (nbrs row col) with
        | none => rw [hdm] at h; exact Option.noConfusion h
        | some d =>
          rw [hdm] at h
          have h' : (d, true) = (D, bl) := by simpa using h
          obtain ⟨rfl, rfl⟩ := Prod.ext_iff.1 h'
          have aux : ∀ qs dug' D',
              digManyAux (fun d r c => digF b nbrs f d r c) dug' qs = some D' →
              ∀ p ∈ D', p ∉ dug' → cellAt? b p.1 p.2 = some (some (Cell.num 0)) →
                ∀ q ∈ nbrSquare dim p.1 p.2, q ∈ D' := by
            intro qs
            induction qs with
            | nil =>
              intro dug' D' hq p hp hpd _
              rw [digManyAux_nil] at hq
              cases hq
              exact absurd hp hpd
            | cons q0 qs ihq =>
              intro dug' D' hq p hp hpd hp0
              by_cases hqd : q0 ∈ dug'
              · rw [digManyAux_cons_mem qs hqd] at hq
                exact ihq dug' D' hq p hp hpd hp0
              · cases hfd : digF b nbrs f dug' q0.1 q0.2 with
                | none => rw [digManyAux_cons_none qs hqd hfd] at hq; exact Option.noConfusion hq
                | some db =>
                  obtain ⟨d1, bl1⟩ := db
                  rw [digManyAux_cons_some qs hqd hfd] at hq
                  by_cases hpd1 : p ∈ d1
                  · intro q hqs
                    have hq1 : q ∈ d1 := ih dug' q0.1 q0.2 d1 bl1 hfd p hpd1 hpd hp0 q hqs
                    exact (digManyAux_subset hmono hmem2 qs d1 D' hq).1 hq1
                  · exact ihq d1 D' hq p hp hpd1 hp0
          intro p hp hpd hp0
          by_cases hp1 : p = (row, col)
          · subst hp1
            intro q hqs
            exact (digManyAux_subset hmono hmem2 _ _ _ hdm).2 q ((hmem row col q).2 hqs)
          · have hpd1 : p ∉ insert (row, col) dug := by
              intro hmem'
              rcases Finset.mem_insert.1 hmem' with h1 | h1
              · exact hp1 h1
              · exact hpd h1
            exact aux (nbrs row col) (insert (row, col) dug) d hdm p hp hpd1 hp0

/-- After digging a `Count(0)` cell, its whole enumerated neighbour list
is dug. -/
theorem digF_zero_nbrs_sub {b : PyBoard} {nbrs : Int → Int → List Coord}
    {fuel : Nat} {dug D : Finset Coord} {row col : Int} {bl : Bool}
    (hcell : cellAt? b row col = some (some (Cell.num 0)))
    (h : digF b nbrs (fuel + 1) dug row col = some (D, bl)) :
    ∀ q ∈ nbrs row col, q ∈ D := by
  have hmono : ∀ dug r c d bl, digF b nbrs fuel dug r c = some (d, bl) → dug ⊆ d :=
    fun dug r c d bl hfd => (digF_subset fuel dug r c d bl hfd).1
  have hmem2 : ∀ dug r c d bl, digF b nbrs fuel dug r c = some (d, bl) → (r, c) ∈ d :=
    fun dug r c d bl hfd => (digF_subset fuel dug r c d bl hfd).2
  rw [digF_zeroCell nbrs fuel dug hcell] at h
  cases hdm : digManyAux (fun d r c => digF b nbrs fuel d r c) (insert (row, col) dug)
      (nbrs row col) with
  | none => rw [hdm] at h; exact Option.noConfusion h
  | some d =>
    rw [hdm] at h
    have h' : (d, true) = (D, bl) := by simpa using h
    obtain ⟨rfl, rfl⟩ := Prod.ext_iff.1 h'
    exact (digManyAux_subset hmono hmem2 _ _ _ hdm).2

/-! Construction: bomb planting. -/

/-- The coordinate named by a `(row, col)` pair of Nat indices. -/
def natCoord (p : Nat × Nat) : Coord := ((p.1 : Int), (p.2 : Int))

theorem inB_natCoord {dim : Nat} {p : Nat × Nat} :
    inB dim (natCoord p) ↔ p.1 < dim ∧ p.2 < dim := by
  rw [inB_iff]
  unfold natCoord
  omega

theorem gridShape_replicate (dim : Nat) :
    gridShape dim (List.replicate dim (List.replicate dim (none : MCell))) := by
  refine ⟨by simp, ?_⟩
  intro row hrow
  rw [List.eq_of_mem_replicate hrow]
  simp

theorem cellAt?_replicate {dim : Nat} {p : Coord} (h : inB dim p) :
    cellAt? (List.replicate dim (List.replicate dim (none : MCell))) p.1 p.2 = some none := by
  rw [inB_iff] at h
  rw [cellAt?_nonneg _ h.1 h.2.2.1]
  rw [List.getElem?_replicate, if_pos (by omega), Option.some_bind]
  rw [List.getElem?_replicate, if_pos (by omega)]

theorem minesF_replicate (dim : Nat) :
    minesF dim (List.replicate dim (List.replicate dim (none : MCell))) = ∅ := by
  rw [Finset.eq_empty_iff_forall_not_mem]
  intro p hp
  rw [minesF, Finset.mem_filter] at hp
  obtain ⟨hin, hmine⟩ := hp
  rw [isMine, cellAt?_replicate (mem_inBF.1 hin)] at hmine
  exact Option.noConfusion (Option.some.inj hmine)

theorem minesF_setCell_mine {dim : Nat} {bd : PyBoard} (hsh : gridShape dim bd)
    {r c : Nat} (hr : r < dim) (hc : c < dim) :
    minesF dim (setCell bd r c (some Cell.mine)) = insert (natCoord (r, c)) (minesF dim bd) := by
  ext q
  simp only [minesF, Finset.mem_filter, Finset.mem_insert, mem_inBF]
  by_cases hq : q = natCoord (r, c)
  · subst hq
    simp only [true_or, iff_true]
    refine ⟨inB_natCoord.2 ⟨hr, hc⟩, ?_⟩
    rw [isMine]
    exact cellAt?_setCell_eq hsh hr hc _
  · constructor
    · rintro ⟨hin, hmine⟩
      rw [isMine, cellAt?_setCell_ne (inB_iff.1 hin).1 (inB_iff.1 hin).2.2.1
        (fun hcontra => hq (Prod.ext_iff.2 hcontra)) _] at hmine
      exact Or.inr ⟨hin, hmine⟩
    · rintro (hcontra | ⟨hin, hmine⟩)
      · exact absurd hcontra hq
      · refine ⟨hin, ?_⟩
        rw [isMine, cellAt?_setCell_ne (inB_iff.1 hin).1 (inB_iff.1 hin).2.2.1
          (fun hcontra => hq (Prod.ext_iff.2 hcontra)) _]
        exact hmine

theorem natCoord_not_mem_minesF {dim : Nat} {bd : PyBoard} {r c : Nat}
    (h : ¬ cellAt? bd (r : Int) (c : Int) = some (some Cell.mine)) :
    natCoord (r, c) ∉ minesF dim bd := by
  intro hmem
  rw [minesF, Finset.mem_filter] at hmem
  exact h hmem.2

/-- The planting loop plants exactly the missing number of bombs, keeps
the grid shape, and plants each one at a coordinate without a bomb. -/
theorem plantBombs_spec {dim nb : Nat} :
    ∀ (samples : List Nat) (planted : Nat) (bd b' : PyBoard),
      gridShape dim bd → planted ≤ nb →
      plantBombs dim nb samples planted bd = some b' →
      gridShape dim b' ∧ (minesF dim b').card + planted = (minesF dim bd).card + nb := by
  intro samples
  induction samples with
  | nil =>
    intro planted bd b' hsh hple h
    unfold plantBombs at h
    split at h
    · exact Option.noConfusion h
    · cases h
      constructor
      · exact hsh
      · omega
  | cons loc rest ih =>
    intro planted bd b' hsh hple h
    unfold plantBombs at h
    split at h
    case isTrue hpl =>
      split at h
      case isTrue hloc =>
        have hdimpos : 0 < dim := by
          rcases Nat.eq_zero_or_pos dim with rfl | hpos
          · omega
          · exact hpos
        have hrow : loc / dim < dim := (Nat.div_lt_iff_lt_mul hdimpos).2 hloc
        have hcol : loc % dim < dim := Nat.mod_lt _ hdimpos
        split at h
        case isTrue hhit => exact ih planted bd b' hsh hple h
        case isFalse hmiss =>
          obtain ⟨hsh', hcard⟩ := ih (planted + 1) _ b'
            (gridShape_setCell hsh _ _ _) (by omega) h
          refine ⟨hsh', ?_⟩
          rw [minesF_setCell_mine hsh hrow hcol,
            Finset.card_insert_of_not_mem (natCoord_not_mem_minesF hmiss)] at hcard
          omega
      case isFalse => exact Option.noConfusion h
    case isFalse hpl =>
      cases h
      constructor
      · exact hsh
      · omega

/-! Construction: count assignment. -/

/-- The row-major order in which the `assign_values_to_board` loops visit
the grid. -/
def lexPairs (dim : Nat) : List (Nat × Nat) :=
  (List.range dim).flatMap fun r => (List.range dim).map fun c => (r, c)

theorem mem_lexPairs {dim : Nat} {p : Nat × Nat} :
    p ∈ lexPairs dim ↔ p.1 < dim ∧ p.2 < dim := by
  obtain ⟨a, b2⟩ := p
  simp only [lexPairs, List.mem_flatMap, List.mem_map, List.mem_range, Prod.mk.injEq]
  constructor
  · rintro ⟨r, hr, c, hc, rfl, rfl⟩
    exact ⟨hr, hc⟩
  · rintro ⟨h1, h2⟩
    exact ⟨a, h1, b2, h2, rfl, rfl⟩

theorem nodup_lexPairs {dim : Nat} : (lexPairs dim).Nodup := by
  unfold lexPairs
  rw [List.nodup_flatMap]
  refine ⟨fun x _ => (List.nodup_range dim).map fun a b h => (Prod.ext_iff.1 h).2, ?_⟩
  refine (List.nodup_range dim).imp ?_
  intro a b hab p hp1 hp2
  simp only [List.mem_map] at hp1 hp2
  obtain ⟨c1, _, rfl⟩ := hp1
  obtain ⟨c2, _, h2⟩ := hp2
  exact hab (Prod.ext_iff.1 h2).1.symm

theorem foldl_flatMap {α β γ : Type} (g : α → List β) (f : γ → β → γ) :
    ∀ (l : List α) (init : γ),
      (l.flatMap g).foldl f init = l.foldl (fun acc a => (g a).foldl f acc) init := by
  intro l
  induction l with
  | nil => intro init; rfl
  | cons a l ih =>
    intro init
    rw [List.flatMap_cons, List.foldl_append, List.foldl_cons, ih]

/-- The two nested loops of `assign_values_to_board` are a single fold
over the row-major list of grid coordinates. -/
theorem assign_eq_foldl (dim : Nat) (bd : PyBoard) :
    assign_values_to_board dim bd =
      (lexPairs dim).foldl (fun b p => assignCell dim b p.1 p.2) bd := by
  unfold assign_values_to_board lexPairs
  rw [foldl_flatMap]
  congr 1
  funext acc r
  rw [List.foldl_map]

/-- `get_num_neighboring_bombs` depends only on where the bombs are. -/
theorem get_num_congr {dim : Nat} {b b' : PyBoard}
    (h : ∀ p, inB dim p → (isMine b' p ↔ isMine b p)) (row col : Int) :
    get_num_neighboring_bombs dim b' row col = get_num_neighboring_bombs dim b row col := by
  unfold get_num_neighboring_bombs
  apply congrArg List.length
  apply List.filter_congr
  intro q hq
  have hiff := h q (inB_of_mem_nbrSquare hq)
  rw [isMine, isMine] at hiff
  rw [decide_eq_decide.2 hiff]

/-- Invariant of the assignment fold: shape and bombs are preserved,
coordinates outside the remaining work list keep their cells, and every
visited bomb-free coordinate holds the count that
`get_num_neighboring_bombs` computed — which is stable because the fold
never moves a bomb. -/
theorem assignFold_spec {dim : Nat} :
    ∀ (L : List (Nat × Nat)) (b0 : PyBoard),
      (∀ p ∈ L, p.1 < dim ∧ p.2 < dim) → L.Nodup → gridShape dim b0 →
      gridShape dim (L.foldl (fun b p => assignCell dim b p.1 p.2) b0) ∧
      (∀ p, inB dim p →
        (isMine (L.foldl (fun b p => assignCell dim b p.1 p.2) b0) p ↔ isMine b0 p)) ∧
      (∀ r c : Nat, (r, c) ∉ L →
        cellAt? (L.foldl (fun b p => assignCell dim b p.1 p.2) b0) (r : Int) (c : Int)
          = cellAt? b0 (r : Int) (c : Int)) ∧
      (∀ p ∈ L, ¬ isMine b0 (natCoord p) →
        cellAt? (L.foldl (fun b p => assignCell dim b p.1 p.2) b0) (p.1 : Int) (p.2 : Int)
          = some (some (Cell.num (get_num_neighboring_bombs dim b0 (p.1 : Int) (p.2 : Int))))) := by
  intro L
  induction L with
  | nil =>
    intro b0 _ _ hsh
    exact ⟨hsh, fun p _ => Iff.rfl, fun r c _ => rfl, by simp⟩
  | cons q0 L' ih =>
    intro b0 hbnd hnd hsh
    obtain ⟨hq0L, hnd'⟩ := List.nodup_cons.1 hnd
    obtain ⟨hq0r, hq0c⟩ := hbnd q0 (List.mem_cons_self _ _)
    simp only [List.foldl_cons]
    set b1 := assignCell dim b0 q0.1 q0.2 with hb1
    have hsh1 : gridShape dim b1 := by
      rw [hb1]
      unfold assignCell
      split
      · exact hsh
      · exact gridShape_setCell hsh _ _ _
    have hmine1 : ∀ p, inB dim p → (isMine b1 p ↔ isMine b0 p) := by
      intro p hp
      rw [hb1]
      unfold assignCell
      split
      case isTrue => exact Iff.rfl
      case isFalse hm =>
        by_cases hpq : p = natCoord q0
        · subst hpq
          constructor
          · intro hmine
            rw [isMine] at hmine
            rw [show (natCoord q0).1 = (q0.1 : Int) from rfl,
              show (natCoord q0).2 = (q0.2 : Int) from rfl,
              cellAt?_setCell_eq hsh hq0r hq0c] at hmine
            exact absurd (Option.some.inj (Option.some.inj hmine)) (by simp)
          · intro hmine
            exact absurd hmine hm
        · rw [isMine, isMine,
            cellAt?_setCell_ne (inB_iff.1 hp).1 (inB_iff.1 hp).2.2.1
              (fun hcontra => hpq (Prod.ext_iff.2 hcontra)) _]
    have hcell_q0 : ¬ isMine b0 (natCoord q0) →
        cellAt? b1 (q0.1 : Int) (q0.2 : Int)
          = some (some (Cell.num (get_num_neighboring_bombs dim b0 (q0.1 : Int) (q0.2 : Int)))) := by
      intro hm
      rw [hb1]
      unfold assignCell
      rw [if_neg (show ¬(cellAt? b0 (q0.1 : Int) (q0.2 : Int) = some (some Cell.mine)) from hm)]
      exact cellAt?_setCell_eq hsh hq0r hq0c _
    have hframe1 : ∀ r c : Nat, (r, c) ≠ q0 →
        cellAt? b1 (r : Int) (c : Int) = cellAt? b0 (r : Int) (c : Int) := by
      intro r c hne
      rw [hb1]
      unfold assignCell
      split
      · rfl
      · refine cellAt?_setCell_ne (Int.natCast_nonneg r) (Int.natCast_nonneg c) ?_ _
        rintro ⟨h1, h2⟩
        have hr : r = q0.1 := by exact_mod_cast h1
        have hc : c = q0.2 := by exact_mod_cast h2
        exact hne (Prod.ext_iff.2 ⟨hr, hc⟩)
    obtain ⟨ihsh, ihmine, ihframe, ihval⟩ :=
      ih b1 (fun p hp => hbnd p (List.mem_cons_of_mem _ hp)) hnd' hsh1
    refine ⟨ihsh, ?_, ?_, ?_⟩
    · intro p hp
      exact (ihmine p hp).trans (hmine1 p hp)
    · intro r c hrc
      have h1 : (r, c) ∉ L' := fun hmem => hrc (List.mem_cons_of_mem _ hmem)
      have h2 : (r, c) ≠ q0 := fun heq => hrc (heq ▸ List.mem_cons_self _ _)
      rw [ihframe r c h1, hframe1 r c h2]
    · intro p hp hm
      rcases List.mem_cons.1 hp with rfl | hp'
      · have hq0notL' : (p.1, p.2) ∉ L' := by
          intro hmem
          exact hq0L (by simpa using hmem)
        rw [ihframe p.1 p.2 hq0notL']
        exact hcell_q0 hm
      · have hpin : inB dim (natCoord p) :=
          inB_natCoord.2 (hbnd p (List.mem_cons_of_mem _ hp'))
        have hm1 : ¬ isMine b1 (natCoord p) := fun hmine => hm ((hmine1 _ hpin).1 hmine)
        rw [ihval p hp' hm1]
        rw [get_num_congr hmine1 (p.1 : Int) (p.2 : Int)]

/-- A successful construction yields a valid board, on which every
in-bounds cell is a mine or carries the true clipped-neighbourhood mine
count. -/
theorem mkBoard_valid {dim nb : Nat} {samples : List Nat} {b : PyBoard}
    (h : mkBoard dim nb samples = some b) :
    ValidBoard dim nb b ∧
    ∀ p : Coord, inB dim p → isMine b p ∨
      cellAt? b p.1 p.2 = some (some (Cell.num (mineNbrCount dim b p.1 p.2))) := by
  unfold mkBoard at h
  cases hmk : make_new_board dim nb samples with
  | none => rw [hmk] at h; exact Option.noConfusion h
  | some bP =>
    rw [hmk] at h
    have hb : b = assign_values_to_board dim bP := (Option.some.inj (by simpa using h)).symm
    unfold make_new_board at hmk
    obtain ⟨hshP, hcardP⟩ :=
      plantBombs_spec samples 0 _ bP (gridShape_replicate dim) (Nat.zero_le nb) hmk
    rw [minesF_replicate] at hcardP
    rw [Finset.card_empty] at hcardP
    obtain ⟨hsh, hmineiff, hframe, hval⟩ := by
      have hfold := assignFold_spec (lexPairs dim) bP
        (fun p hp => mem_lexPairs.1 hp) nodup_lexPairs hshP
      rw [← assign_eq_foldl, ← hb] at hfold
      exact hfold
    have hminesEq : minesF dim b = minesF dim bP :=
      Finset.filter_congr fun p hp => hmineiff p (mem_inBF.1 hp)
    have hcell : ∀ p : Coord, inB dim p → isMine b p ∨
        cellAt? b p.1 p.2
          = some (some (Cell.num (get_num_neighboring_bombs dim bP p.1 p.2))) := by
      intro p hp
      rw [inB_iff] at hp
      by_cases hm : isMine bP p
      · exact Or.inl ((hmineiff p (inB_iff.2 hp)).2 hm)
      · right
        have hpeq : natCoord (p.1.toNat, p.2.toNat) = p := by
          unfold natCoord
          rw [Prod.ext_iff]
          constructor
          · show ((p.1.toNat : Int)) = p.1
            omega
          · show ((p.2.toNat : Int)) = p.2
            omega
        have hmemL : (p.1.toNat, p.2.toNat) ∈ lexPairs dim := mem_lexPairs.2 ⟨by omega, by omega⟩
        have hmP : ¬ isMine bP (natCoord (p.1.toNat, p.2.toNat)) := by
          rw [hpeq]
          exact hm
        have hv := hval (p.1.toNat, p.2.toNat) hmemL hmP
        have h1 : ((p.1.toNat : Int)) = p.1 := by omega
        have h2 : ((p.2.toNat : Int)) = p.2 := by omega
        rw [h1, h2] at hv
        exact hv
    have hcnt : ∀ p : Coord, inB dim p →
        get_num_neighboring_bombs dim bP p.1 p.2 = mineNbrCount dim b p.1 p.2 := by
      intro p hp
      rw [← get_num_congr hmineiff p.1 p.2]
      exact get_num_eq_mineNbrCount b hp
    refine ⟨⟨hsh, ?_, ?_, ?_⟩, ?_⟩
    · intro p hp
      rcases hcell p (mem_inBF.1 hp) with hm | hc
      · rw [realCellB_iff]
        exact ⟨Cell.mine, hm⟩
      · rw [realCellB_iff]
        exact ⟨_, hc⟩
    · rw [hminesEq]
      omega
    · intro p hp
      rcases hcell p (mem_inBF.1 hp) with hm | hc
      · rw [isMine] at hm
        unfold countOKB
        rw [hm]
      · unfold countOKB
        rw [hc, hcnt p (mem_inBF.1 hp)]
        simp
    · intro p hp
      rcases hcell p hp with hm | hc
      · exact Or.inl hm
      · right
        rw [hc, hcnt p hp]

/-! From the dig computation to the spec's cascade closure. -/

theorem rtg_casc_closure {dim : Nat} {b : PyBoard} {S0 : Set Coord} {start x : Coord}
    (hstart : start ∈ S0) (h : Relation.ReflTransGen (CascStep dim b) start x) :
    CascClosure dim b S0 x := by
  induction h with
  | refl => exact CascClosure.base _ hstart
  | tail hab hbc ih => exact CascClosure.expand _ _ ih hbc

theorem mineNbr_zero_no_mine {dim : Nat} {b : PyBoard} {r c : Int}
    (hcnt0 : mineNbrCount dim b r c = 0) :
    ∀ q, inB dim q → q ∈ neighborOffsets r c → ¬ isMine b q := by
  unfold mineNbrCount at hcnt0
  rw [List.length_eq_zero] at hcnt0
  intro q hq hqoff hqm
  have hmem : q ∈ ([] : List Coord) := by
    rw [← hcnt0]
    exact List.mem_filter.2 ⟨hqoff, by simp [hq, hqm]⟩
  simp at hmem

/-- On a valid board, a cascade step only reaches in-bounds count cells:
the source of the step is a `Count(0)` cell, so none of its neighbours is
a mine. -/
theorem casc_step_target {dim nb : Nat} {b : PyBoard} (hv : ValidBoard dim nb b)
    {p x : Coord} (hstep : CascStep dim b p x) :
    inB dim x ∧ ∃ n, cellAt? b x.1 x.2 = some (some (Cell.num n)) := by
  obtain ⟨hpin, hp0, hxsq⟩ := hstep
  have hxin : inB dim x := inB_of_mem_nbrSquare hxsq
  refine ⟨hxin, ?_⟩
  by_cases hxp : x = p
  · subst hxp
    exact ⟨0, hp0⟩
  · have hcnt : countOKB dim b p = true := hv.2.2.2 p (mem_inBF.2 hpin)
    unfold countOKB at hcnt
    rw [hp0] at hcnt
    have h0 : mineNbrCount dim b p.1 p.2 = 0 := by
      have := of_decide_eq_true hcnt
      omega
    have hxoff : x ∈ neighborOffsets p.1 p.2 := by
      rw [mem_neighborOffsets]
      rw [mem_nbrSquare] at hxsq
      refine ⟨fun hcontra => hxp (Prod.ext_iff.2 hcontra), by omega, by omega, by omega, by omega⟩
    have hnotm : ¬ isMine b x := mineNbr_zero_no_mine h0 x hxin hxoff
    obtain ⟨cl, hcl⟩ := realCellB_iff.1 (hv.2.1 x (mem_inBF.2 hxin))
    cases cl with
    | mine => exact absurd hcl hnotm
    | num n => exact ⟨n, hcl⟩

/-- The Bool returned by `dig` records exactly whether the selected cell
was a bomb. -/
theorem digF_bool_cell {b : PyBoard} {nbrs : Int → Int → List Coord}
    {fuel : Nat} {dug D : Finset Coord} {row col : Int} {bl : Bool}
    (h : digF b nbrs fuel dug row col = some (D, bl)) :
    (bl = false ∧ cellAt? b row col = some (some Cell.mine)) ∨
    (bl = true ∧ ∃ n, cellAt? b row col = some (some (Cell.num n))) := by
  obtain ⟨f, rfl, cl, hcell⟩ := digF_some_cell h
  cases cl with
  | mine =>
    rw [digF_mine nbrs f dug hcell] at h
    have h' := Prod.ext_iff.1 (Option.some.inj h)
    exact Or.inl ⟨h'.2.symm, hcell⟩
  | num n =>
    cases n with
    | succ m =>
      rw [digF_pos nbrs f dug hcell (Nat.succ_pos m)] at h
      have h' := Prod.ext_iff.1 (Option.some.inj h)
      exact Or.inr ⟨h'.2.symm, m + 1, hcell⟩
    | zero =>
      rw [digF_zeroCell nbrs f dug hcell] at h
      cases hdm : digManyAux (fun d r c => digF b nbrs f d r c) (insert (row, col) dug)
          (nbrs row col) with
      | none => rw [hdm] at h; exact Option.noConfusion h
      | some d =>
        rw [hdm] at h
        have h' : (d, true) = (D, bl) := by simpa using h
        exact Or.inr ⟨(Prod.ext_iff.1 h').2.symm, 0, hcell⟩

/-- Digging an in-bounds `Count(0)` cell computes exactly the closure of
the previously dug set plus the selected coordinate under the cascade
relation, provided every previously dug in-bounds `Count(0)` cell already
has its neighbour square dug. -/
theorem digF_closure {dim : Nat} {b : PyBoard} {nbrs : Int → Int → List Coord}
    {fuel : Nat} {dug D : Finset Coord} {row col : Int} {bl : Bool}
    (hmem : ∀ row col : Int, ∀ q : Coord, q ∈ nbrs row col ↔ q ∈ nbrSquare dim row col)
    (hin : inB dim (row, col))
    (hinv : DugInv dim b dug)
    (h : digF b nbrs fuel dug row col = some (D, bl)) :
    ∀ x : Coord, x ∈ D ↔ CascClosure dim b (↑dug ∪ {(row, col)}) x := by
  intro x
  constructor
  · intro hx
    rcases digF_casc hmem fuel dug row col D bl hin h x hx with hdug | hrtg
    · exact CascClosure.base x (Or.inl hdug)
    · exact rtg_casc_closure (Or.inr rfl) hrtg
  · intro hx
    induction hx with
    | base p hp =>
      rcases hp with hp | hp
      · exact (digF_subset fuel dug row col D bl h).1 hp
      · rw [Set.mem_singleton_iff] at hp
        subst hp
        exact (digF_subset fuel dug row col D bl h).2
    | expand p q hp hstep ih =>
      obtain ⟨hpin, hp0, hq⟩ := hstep
      by_cases hpd : p ∈ dug
      · exact (digF_subset fuel dug row col D bl h).1 (hinv p hpd hpin hp0 q hq)
      · exact digF_closed hmem fuel dug row col D bl h p ih hpd hp0 q hq

/-! The `play` loop on a valid board. -/

/-- While the game stays safe, every dug coordinate is an in-bounds
non-mine cell: the cascade never digs a mine, and digging a mine ends the
game immediately. -/
theorem reachable_safe_no_mine {dim nb : Nat} {grid : PyBoard}
    (hv : ValidBoard dim nb grid) :
    ∀ {dug : Finset Coord} {safe : Bool}, Reachable dim nb grid dug safe → safe = true →
      ∀ p ∈ dug, inB dim p ∧ ¬ isMine grid p := by
  intro dug safe h
  induction h with
  | start => intro _ p hp; exact absurd hp (Finset.not_mem_empty p)
  | step dug r c D bl hreach hcard hr1 hr2 hc1 hc2 hdig ih =>
    intro hbl p hp
    subst hbl
    have hin : inB dim (r, c) := ⟨hr1, hr2, hc1, hc2⟩
    rcases digF_casc (fun _ _ _ => Iff.rfl) _ _ _ _ _ _ hin hdig p hp with hdug | hrtg
    · exact ih rfl p hdug
    · rcases Relation.ReflTransGen.cases_tail hrtg with rfl | ⟨q, hq, hstep⟩
      · rcases digF_bool_cell hdig with ⟨hfalse, _⟩ | ⟨_, n, hcell⟩
        · exact absurd hfalse (by simp)
        · refine ⟨hin, ?_⟩
          rw [isMine, hcell]
          simp
      · obtain ⟨hxin, n, hcell⟩ := casc_step_target hv hstep
        refine ⟨hxin, ?_⟩
        rw [isMine, hcell]
        simp

/-- In a safe reachable state the dug set consists of non-mine cells, so
it can never exceed `dim * dim - nb` cells. -/
theorem reachable_safe_card_le {dim nb : Nat} {grid : PyBoard}
    (hv : ValidBoard dim nb grid) {dug : Finset Coord}
    (hreach : Reachable dim nb grid dug true) :
    dug.card ≤ dim * dim - nb := by
  have hnom := reachable_safe_no_mine hv hreach rfl
  have hsub : dug ⊆ inBF dim \ minesF dim grid := by
    intro p hp
    refine Finset.mem_sdiff.2 ⟨mem_inBF.2 (hnom p hp).1, fun hm => ?_⟩
    exact (hnom p hp).2 (Finset.mem_filter.1 hm).2
  have hle := Finset.card_le_card hsub
  have hms : minesF dim grid ⊆ inBF dim := Finset.filter_subset _ _
  rw [Finset.card_sdiff hms, card_inBF, hv.2.2.1] at hle
  exact hle

/-! Concrete boards used as witnesses and counterexamples. -/

/-- A 1×1 board with one `Count(0)` cell; this is `mkBoard 1 0 []`. -/
def board1 : PyBoard := [[some (Cell.num 0)]]

/-- A 2×2 board with a single mine at `(1, 1)`; this is `mkBoard 2 1 [3]`. -/
def board2 : PyBoard :=
  [[some (Cell.num 1), some (Cell.num 1)],
   [some (Cell.num 1), some Cell.mine]]

/-- A 5×5 board whose middle column is all mines, separating the zero
region of column 0 from the zero region of column 4. -/
def board5 : PyBoard :=
  [[some (Cell.num 0), some (Cell.num 2), some Cell.mine, some (Cell.num 2), some (Cell.num 0)],
   [some (Cell.num 0), some (Cell.num 3), some Cell.mine, some (Cell.num 3), some (Cell.num 0)],
   [some (Cell.num 0), some (Cell.num 3), some Cell.mine, some (Cell.num 3), some (Cell.num 0)],
   [some (Cell.num 0), some (Cell.num 3), some Cell.mine, some (Cell.num 3), some (Cell.num 0)],
   [some (Cell.num 0), some (Cell.num 2), some Cell.mine, some (Cell.num 2), some (Cell.num 0)]]

/-- The revealed set produced by digging `(0, 4)` on `board5` when
`(0, 0)` was already revealed (listed in the insertion order the
recursion produces). -/
def D5val : Finset Coord :=
  {((4 : Int), (4 : Int)), ((4 : Int), (3 : Int)), ((3 : Int), (4 : Int)),
   ((3 : Int), (3 : Int)), ((2 : Int), (4 : Int)), ((2 : Int), (3 : Int)),
   ((1 : Int), (4 : Int)), ((1 : Int), (3 : Int)), ((0 : Int), (3 : Int)),
   ((0 : Int), (4 : Int)), ((0 : Int), (0 : Int))}

/-- The dug set of a play of `board2` after revealing `(0,0)` and
`(0,1)`. -/
def dug2CE : Finset Coord := {((0 : Int), (1 : Int)), ((0 : Int), (0 : Int))}

/-- The dug set of a play of `board2` that revealed `(0,0)`, `(0,1)` and
then the mine `(1,1)`. -/
def dugCE : Finset Coord :=
  {((1 : Int), (1 : Int)), ((0 : Int), (1 : Int)), ((0 : Int), (0 : Int))}

/-! The claims. -/

/-- C1 (amended): digging an in-bounds `Count(0)` coordinate produces
exactly the closure of the starting revealed set plus the selected
coordinate under the relation "add all clipped 8-neighbours of any
revealed Count(0) cell", and the result is the same for every
neighbour-enumeration order — provided every already-revealed in-bounds
`Count(0)` cell has its whole neighbour square already revealed (true in
particular of the empty starting set, and of every set `dig` produces
from such a set). -/
theorem dig_zero_cell_closure_confluent {dim : Nat} {b : PyBoard}
    {nbrs : Int → Int → List Coord} {fuel fuel' : Nat} {dug D D' : Finset Coord}
    {row col : Int} {bl bl' : Bool}
    (hmem : ∀ row col : Int, ∀ q : Coord, q ∈ nbrs row col ↔ q ∈ nbrSquare dim row col)
    (hin : inB dim (row, col))
    (hcell : cellAt? b row col = some (some (Cell.num 0)))
    (hinv : DugInv dim b dug)
    (h : dig dim b fuel dug row col = some (D, bl))
    (h' : digF b nbrs fuel' dug row col = some (D', bl')) :
    (∀ x : Coord, x ∈ D ↔ CascClosure dim b (↑dug ∪ {(row, col)}) x) ∧ D' = D := by
  have h1 := digF_closure (fun _ _ _ => Iff.rfl) hin hinv h
  have h2 := digF_closure hmem hin hinv h'
  exact ⟨h1, Finset.ext fun x => (h2 x).trans (h1 x).symm⟩

theorem dig_zero_cell_closure_confluent_witness :
    dig 1 board1 2 ∅ 0 0 = some ({((0 : Int), (0 : Int))}, true) ∧
    ((∀ x : Coord, x ∈ ({((0 : Int), (0 : Int))} : Finset Coord) ↔
        CascClosure 1 board1 (↑(∅ : Finset Coord) ∪ {((0 : Int), (0 : Int))}) x) ∧
      ({((0 : Int), (0 : Int))} : Finset Coord) = {((0 : Int), (0 : Int))}) :=
  ⟨rfl,
   dig_zero_cell_closure_confluent (fun _ _ _ => Iff.rfl)
     (show inB 1 ((0 : Int), (0 : Int)) by decide)
     (show cellAt? board1 0 0 = some (some (Cell.num 0)) from rfl)
     (fun p hp => absurd hp (Finset.not_mem_empty p))
     (show dig 1 board1 2 ∅ 0 0 = some ({((0 : Int), (0 : Int))}, true) from rfl)
     (show digF board1 (nbrSquare 1) 2 ∅ 0 0 = some ({((0 : Int), (0 : Int))}, true) from rfl)⟩

/-- C1 (counterexample to the claim as stated): on `board5` with `(0,0)`
already revealed but unexpanded, digging `(0,4)` yields `D5val`, yet the
closure of the starting revealed set contains `(0,1)` (expanding the
already-revealed zero cell `(0,0)`) while `D5val` does not. -/
theorem dig_zero_cell_closure_counterexample :
    dig 5 board5 26 {((0 : Int), (0 : Int))} 0 4 = some (D5val, true) ∧
    ¬ (((0 : Int), (1 : Int)) ∈ D5val ↔
        CascClosure 5 board5
          (↑({((0 : Int), (0 : Int))} : Finset Coord) ∪ {((0 : Int), (4 : Int))})
          ((0 : Int), (1 : Int))) := by
  constructor
  · exact rfl
  · intro hiff
    have hcl : CascClosure 5 board5
        (↑({((0 : Int), (0 : Int))} : Finset Coord) ∪ {((0 : Int), (4 : Int))})
        ((0 : Int), (1 : Int)) :=
      CascClosure.expand _ _
        (CascClosure.base ((0 : Int), (0 : Int)) (Or.inl (Finset.mem_coe.mpr (by decide))))
        ⟨show inB 5 ((0 : Int), (0 : Int)) by decide,
         show cellAt? board5 0 0 = some (some (Cell.num 0)) from rfl,
         show ((0 : Int), (1 : Int)) ∈ nbrSquare 5 0 0 by decide⟩
    exact absurd (hiff.2 hcl) (by decide)

/-- C2: on a valid board, digging an in-bounds non-mine coordinate never
adds a mine to the revealed set: every newly revealed coordinate holds a
count. -/
theorem cascade_reveals_no_mine {dim nb fuel : Nat} {b : PyBoard} {dug D : Finset Coord}
    {row col : Int} {bl : Bool}
    (hv : ValidBoard dim nb b) (hin : inB dim (row, col))
    (hnm : cellAt? b row col ≠ some (some Cell.mine))
    (h : dig dim b fuel dug row col = some (D, bl)) :
    ∀ x ∈ D, x ∉ dug → ∃ n, cellAt? b x.1 x.2 = some (some (Cell.num n)) := by
  intro x hx hxd
  rcases digF_casc (fun _ _ _ => Iff.rfl) fuel dug row col D bl hin h x hx with hdug | hrtg
  · exact absurd hdug hxd
  · rcases Relation.ReflTransGen.cases_tail hrtg with rfl | ⟨p, _, hstep⟩
    · obtain ⟨cl, hcl⟩ := realCellB_iff.1 (hv.2.1 _ (mem_inBF.2 hin))
      cases cl with
      | mine => exact absurd hcl hnm
      | num n => exact ⟨n, hcl⟩
    · exact (casc_step_target hv hstep).2

theorem cascade_reveals_no_mine_witness :
    ValidBoard 2 1 board2 ∧
    ∀ x ∈ ({((0 : Int), (0 : Int))} : Finset Coord), x ∉ (∅ : Finset Coord) →
      ∃ n, cellAt? board2 x.1 x.2 = some (some (Cell.num n)) :=
  ⟨by decide,
   cascade_reveals_no_mine (show ValidBoard 2 1 board2 by decide)
     (show inB 2 ((0 : Int), (0 : Int)) by decide)
     (show cellAt? board2 0 0 ≠ some (some Cell.mine) by decide)
     (show dig 2 board2 5 ∅ 0 0 = some ({((0 : Int), (0 : Int))}, true) from rfl)⟩

/-- C3 (the code): `dig` performs no bounds check.  On `board2`
(`dim_size = 2`), `dig(-1, 0)` silently wraps the negative index to the
last row, reads that cell, inserts `(-1, 0)` into the dug set and returns
normally; `dig(2, 0)` raises IndexError (modelled as `none`) — after
having already inserted `(2, 0)` — and no OutOfBounds failure exists
anywhere in the code. -/
theorem reveal_out_of_bounds_behavior :
    dig 2 board2 5 ∅ (-1) 0 = some ({((-1 : Int), (0 : Int))}, true) ∧
    dig 2 board2 5 ∅ 2 0 = none := by
  constructor
  · decide
  · decide

/-- C4 (the code): constructing a board with `mineCount = size * size`
(outside the contract range `[0, size^2)`) does not fail: with size 1 and
mine count 1 the construction succeeds and produces an all-mine board. -/
theorem construction_invalid_mine_count_behavior :
    ¬ (1 < 1 * 1) ∧ mkBoard 1 1 [0] = some [[some Cell.mine]] ∧
    (minesF 1 [[some Cell.mine]]).card = 1 := by
  refine ⟨by decide, by decide, by decide⟩

/-- C5: for valid parameters, a successful construction has exactly
`num_bombs` mine coordinates, and every other in-bounds coordinate holds
`Count(n)` with `n` the exact number of mines in its clipped
8-neighbourhood. -/
theorem construction_mine_count_and_values {dim nb : Nat} {samples : List Nat} {b : PyBoard}
    (hnb : nb < dim * dim) (h : mkBoard dim nb samples = some b) :
    (minesF dim b).card = nb ∧
    ∀ p : Coord, inB dim p → isMine b p ∨
      cellAt? b p.1 p.2 = some (some (Cell.num (mineNbrCount dim b p.1 p.2))) := by
  obtain ⟨hv, hdisj⟩ := mkBoard_valid h
  exact ⟨hv.2.2.1, hdisj⟩

theorem construction_mine_count_and_values_witness :
    (1 < 2 * 2) ∧
    ((minesF 2 board2).card = 1 ∧
      ∀ p : Coord, inB 2 p → isMine board2 p ∨
        cellAt? board2 p.1 p.2 = some (some (Cell.num (mineNbrCount 2 board2 p.1 p.2)))) :=
  ⟨by decide,
   construction_mine_count_and_values (by decide)
     (show mkBoard 2 1 [3] = some board2 from rfl)⟩

/-- C6: revealing the same coordinate twice in succession yields exactly
the revealed set and result of revealing it once: the second dig changes
nothing. -/
theorem reveal_idempotent {dim fuel fuel' : Nat} {b : PyBoard} {dug D : Finset Coord}
    {row col : Int} {bl : Bool}
    (h : dig dim b fuel dug row col = some (D, bl)) (hf : 0 < fuel') :
    dig dim b fuel' D row col = some (D, bl) := by
  obtain ⟨f, rfl, cl, hcell⟩ := digF_some_cell h
  obtain ⟨f', rfl⟩ : ∃ f'', fuel' = f'' + 1 := ⟨fuel' - 1, by omega⟩
  have hmemD : (row, col) ∈ D := (digF_subset (f + 1) dug row col D bl h).2
  cases cl with
  | mine =>
    rw [dig, digF_mine _ f dug hcell] at h
    have hh := Option.some.inj h
    injection hh with h1 h2
    rw [dig, digF_mine _ f' D hcell, Finset.insert_eq_self.2 hmemD, ← h2]
  | num n =>
    cases n with
    | succ m =>
      rw [dig, digF_pos _ f dug hcell (Nat.succ_pos m)] at h
      have hh := Option.some.inj h
      injection hh with h1 h2
      rw [dig, digF_pos _ f' D hcell (Nat.succ_pos m), Finset.insert_eq_self.2 hmemD, ← h2]
    | zero =>
      have hnbrs : ∀ q ∈ nbrSquare dim row col, q ∈ D := digF_zero_nbrs_sub hcell h
      rcases digF_bool_cell h with ⟨_, hmine⟩ | ⟨hbl, _⟩
      · rw [hcell] at hmine
        simp at hmine
      · subst hbl
        rw [dig, digF_zeroCell _ f' D hcell, Finset.insert_eq_self.2 hmemD,
          digManyAux_all_mem hnbrs]
        rfl

theorem reveal_idempotent_witness :
    (dig 1 board1 2 ∅ 0 0 = some ({((0 : Int), (0 : Int))}, true) ∧ 0 < 3) ∧
    dig 1 board1 3 {((0 : Int), (0 : Int))} 0 0 = some ({((0 : Int), (0 : Int))}, true) :=
  ⟨⟨rfl, by decide⟩,
   reveal_idempotent
     (show dig 1 board1 2 ∅ 0 0 = some ({((0 : Int), (0 : Int))}, true) from rfl)
     (show 0 < 3 by decide)⟩

/-- C7: revealing a mine returns the mine outcome (`False` in the code),
adds exactly the selected coordinate to the revealed set, and leaves
every other coordinate's status unchanged — no cascade happens. -/
theorem reveal_mine_hits_only_selected {dim fuel : Nat} {b : PyBoard} {dug : Finset Coord}
    {row col : Int}
    (hin : inB dim (row, col)) (hcell : cellAt? b row col = some (some Cell.mine)) :
    dig dim b (fuel + 1) dug row col = some (insert (row, col) dug, false) ∧
    ∀ q : Coord, q ≠ (row, col) → (q ∈ insert (row, col) dug ↔ q ∈ dug) := by
  refine ⟨digF_mine _ fuel dug hcell, ?_⟩
  intro q hq
  simp [Finset.mem_insert, hq]

theorem reveal_mine_hits_only_selected_witness :
    cellAt? board2 1 1 = some (some Cell.mine) ∧
    (dig 2 board2 5 ∅ 1 1 = some (insert ((1 : Int), (1 : Int)) ∅, false) ∧
      ∀ q : Coord, q ≠ ((1 : Int), (1 : Int)) →
        (q ∈ insert ((1 : Int), (1 : Int)) (∅ : Finset Coord) ↔ q ∈ (∅ : Finset Coord))) :=
  ⟨rfl,
   reveal_mine_hits_only_selected (show inB 2 ((1 : Int), (1 : Int)) by decide)
     (show cellAt? board2 1 1 = some (some Cell.mine) from rfl)⟩

/-- C8: the reveal recursion terminates on every board state and
in-bounds starting coordinate: any fuel beyond the grid size suffices,
because the revealed set strictly grows at each nested call and
already-revealed neighbours are skipped. -/
theorem reveal_terminates {dim : Nat} {b : PyBoard} {fuel : Nat} {dug : Finset Coord}
    {row col : Int}
    (hwf : ∀ p ∈ inBF dim, realCellB (cellAt? b p.1 p.2) = true)
    (hin : inB dim (row, col)) (hfuel : dim * dim < fuel) :
    (dig dim b fuel dug row col).isSome = true := by
  apply digF_isSome hwf (fun row col q hq => inB_of_mem_nbrSquare hq) fuel dug row col hin
  have h1 : (inBF dim \ insert (row, col) dug).card ≤ (inBF dim).card :=
    Finset.card_le_card Finset.sdiff_subset
  rw [card_inBF] at h1
  omega

theorem reveal_terminates_witness :
    (∀ p ∈ inBF 1, realCellB (cellAt? board1 p.1 p.2) = true) ∧
    (dig 1 board1 2 ∅ 0 0).isSome = true :=
  ⟨by decide,
   reveal_terminates (by decide) (show inB 1 ((0 : Int), (0 : Int)) by decide)
     (show 1 * 1 < 2 by decide)⟩

/-- C9: revealing a not-yet-revealed coordinate holding `Count(n)` with
`n > 0` returns the safe outcome and reveals exactly that one
coordinate, with no cascade. -/
theorem reveal_positive_count_single {dim fuel : Nat} {b : PyBoard} {dug : Finset Coord}
    {row col : Int} {n : Nat}
    (hin : inB dim (row, col)) (hcell : cellAt? b row col = some (some (Cell.num n)))
    (hn : 0 < n) (hnew : (row, col) ∉ dug) :
    dig dim b (fuel + 1) dug row col = some (insert (row, col) dug, true) ∧
    (insert (row, col) dug).card = dug.card + 1 ∧
    ∀ q : Coord, q ≠ (row, col) → (q ∈ insert (row, col) dug ↔ q ∈ dug) := by
  refine ⟨digF_pos _ fuel dug hcell hn, Finset.card_insert_of_not_mem hnew, ?_⟩
  intro q hq
  simp [Finset.mem_insert, hq]

theorem reveal_positive_count_single_witness :
    cellAt? board2 0 0 = some (some (Cell.num 1)) ∧
    (dig 2 board2 5 ∅ 0 0 = some (insert ((0 : Int), (0 : Int)) ∅, true) ∧
      (insert ((0 : Int), (0 : Int)) (∅ : Finset Coord)).card = (∅ : Finset Coord).card + 1 ∧
      ∀ q : Coord, q ≠ ((0 : Int), (0 : Int)) →
        (q ∈ insert ((0 : Int), (0 : Int)) (∅ : Finset Coord) ↔ q ∈ (∅ : Finset Coord))) :=
  ⟨rfl,
   reveal_positive_count_single (show inB 2 ((0 : Int), (0 : Int)) by decide)
     (show cellAt? board2 0 0 = some (some (Cell.num 1)) from rfl) (by decide)
     (Finset.not_mem_empty _)⟩

/-- C10 (amended): in every game state reachable by the `play` loop from
a freshly constructed board, the loop's victory condition holds exactly
when the revealed set has size `dim_size ** 2 - num_bombs` AND the last
dig was safe (no mine has been revealed).  The safety conjunct is
required: a reachable state can have a full-size dug set that includes
the just-revealed mine. -/
theorem play_victory_iff_card {dim nb : Nat} {samples : List Nat} {grid : PyBoard}
    {dug : Finset Coord} {safe : Bool}
    (hmk : mkBoard dim nb samples = some grid)
    (hreach : Reachable dim nb grid dug safe) :
    playVictory dim nb dug safe = true ↔ (dug.card = dim * dim - nb ∧ safe = true) := by
  obtain ⟨hv, _⟩ := mkBoard_valid hmk
  cases safe with
  | false => simp [playVictory]
  | true =>
    have hle := reachable_safe_card_le hv hreach
    constructor
    · intro hwin
      refine ⟨?_, rfl⟩
      have hnlt : ¬ (dug.card < dim * dim - nb) := by
        intro hlt
        rw [playVictory] at hwin
        simp [hlt] at hwin
      omega
    · rintro ⟨hcard, _⟩
      rw [playVictory]
      simp [hcard]

theorem play_victory_iff_card_witness :
    mkBoard 1 0 [] = some board1 ∧
    (playVictory 1 0 (∅ : Finset Coord) true = true ↔
      ((∅ : Finset Coord).card = 1 * 1 - 0 ∧ true = true)) :=
  ⟨rfl,
   play_victory_iff_card (show mkBoard 1 0 [] = some board1 from rfl) Reachable.start⟩

/-- C10 (counterexample to the claim as stated): on `board2`, the state
that revealed `(0,0)`, `(0,1)` and then the mine `(1,1)` is reachable,
its revealed set has size `2*2 - 1`, yet the game is lost, so the win
predicate does not hold exactly when the revealed count reaches
`size^2 - mineCount`. -/
theorem play_victory_card_counterexample :
    Reachable 2 1 board2 dugCE false ∧
    ¬ (playVictory 2 1 dugCE false = true ↔ dugCE.card = 2 * 2 - 1) := by
  constructor
  · have s1 : Reachable 2 1 board2 {((0 : Int), (0 : Int))} true :=
      Reachable.step ∅ 0 0 {((0 : Int), (0 : Int))} true Reachable.start
        (by decide) (by decide) (by decide) (by decide) (by decide)
        (show dig 2 board2 (2 * 2 + 1) ∅ 0 0
          = some ({((0 : Int), (0 : Int))}, true) from rfl)
    have s2 : Reachable 2 1 board2 dug2CE true :=
      Reachable.step {((0 : Int), (0 : Int))} 0 1 dug2CE true s1
        (by decide) (by decide) (by decide) (by decide) (by decide)
        (show dig 2 board2 (2 * 2 + 1) {((0 : Int), (0 : Int))} 0 1
          = some (dug2CE, true) from rfl)
    exact Reachable.step dug2CE 1 1 dugCE false s2
      (by decide) (by decide) (by decide) (by decide) (by decide)
      (show dig 2 board2 (2 * 2 + 1) dug2CE 1 1 = some (dugCE, false) from rfl)
  · intro hiff
    have hcard : dugCE.card = 2 * 2 - 1 := by decide
    have hwin := hiff.2 hcard
    rw [show playVictory 2 1 dugCE false = false from rfl] at hwin
    exact Bool.noConfusion hwin

end Minesweeper
